import Mathlib

/-!
Verification of the transcript-cleaning and summarization core of the
videoWebApp repository (scripts/summarize_transcript.py and
scripts/summarize_transcript_with_agnos.py).

The Python code is shallowly embedded over `List Char` / `String`.
Regex substitution (`re.sub` with empty replacement) is modelled by a
single left-to-right scan that, at each position, either removes a
leftmost match (continuing after its end, matches non-overlapping) or
keeps the character — exactly Python's `re.sub` semantics for these
patterns, none of which requires backtracking.  Whitespace (`\s`,
`str.strip`, `str.split`) is modelled by the ASCII whitespace class.
Recursive scanners take explicit fuel (one unit per consumed character)
so that all definitions compute by kernel reduction.
-/

set_option maxRecDepth 100000

namespace VideoWebApp

/-- ASCII model of the Python whitespace class used by `\s`, `str.strip`
and `str.split`: space, tab, newline, carriage return, vertical tab,
form feed. -/
def isPySpace (c : Char) : Bool :=
  c = ' ' || c = '\t' || c = '\n' || c = '\r' || c = Char.ofNat 11 || c = Char.ofNat 12

def notWs (c : Char) : Bool := !isPySpace c

/-- Characters other than `'>'`, the class `[^>]` of the tag regexes. -/
def notGt (d : Char) : Bool := d != '>'

/-- Positional access into a character list (used to state the
fixed-shape timestamp pattern). -/
def nth : List Char → Nat → Option Char
  | [], _ => none
  | c :: _, 0 => some c
  | _ :: r, n + 1 => nth r n

def isDigO : Option Char → Bool
  | some c => c.isDigit
  | none => false

def isChO : Option Char → Char → Bool
  | some c, d => c = d
  | none, _ => false

/-- The 13 characters following `'<'` in a timestamp marker
`<HH:MM:SS.mmm>`: the tail of the regex `<\d\x7b2\x7d:\d\x7b2\x7d:\d\x7b2\x7d\.\d\x7b3\x7d>`. -/
def tsTail (r : List Char) : Bool :=
  isDigO (nth r 0) && isDigO (nth r 1) && isChO (nth r 2) ':' &&
  isDigO (nth r 3) && isDigO (nth r 4) && isChO (nth r 5) ':' &&
  isDigO (nth r 6) && isDigO (nth r 7) && isChO (nth r 8) '.' &&
  isDigO (nth r 9) && isDigO (nth r 10) && isDigO (nth r 11) &&
  isChO (nth r 12) '>'

/-- Match length of the timestamp regex at the head of `l`
(14 characters when it matches). -/
def tsMatchLen : List Char → Option Nat
  | [] => none
  | c :: r => if c = '<' then (if tsTail r then some 14 else none) else none

/-- ASCII `[a-z]`. -/
def isAsciiLow (c : Char) : Bool := 'a' ≤ c && c ≤ 'z'

/-- After `<` and an optional `/` (whose presence is `slash`), the
style-tag regex requires `[a-z]` then greedy `[^>]*` then `>`: it
matches up to the first `'>'` of the remainder. -/
def styleTagTail (slash : Nat) : List Char → Option Nat
  | [] => none
  | a :: r3 =>
    if isAsciiLow a then
      if (r3.dropWhile notGt).isEmpty then none
      else some (1 + slash + 1 + (r3.takeWhile notGt).length + 1)
    else none

/-- Match length of the style-tag regex `</?[a-z][^>]*>` at the head of
`l`. -/
def styleMatchLen : List Char → Option Nat
  | [] => none
  | c :: r =>
    if c = '<' then
      if nth r 0 = some '/' then styleTagTail 1 r.tail else styleTagTail 0 r
    else none

/-- Match length of `<[^>]*>` at the head of `l`. -/
def starMatchLen : List Char → Option Nat
  | [] => none
  | c :: r =>
    if c = '<' then
      if (r.dropWhile notGt).isEmpty then none
      else some (1 + (r.takeWhile notGt).length + 1)
    else none

/-- Match length of `<[^>]+>` at the head of `l` (the cleaning regex of
summarize_transcript_with_agnos.py; the body must be non-empty). -/
def plusMatchLen : List Char → Option Nat
  | [] => none
  | c :: r =>
    if c = '<' then
      let body := r.takeWhile notGt
      match r.dropWhile notGt with
      | [] => none
      | _ :: _ => if body.isEmpty then none else some (1 + body.length + 1)
    else none

/-- Fueled left-to-right scan of `re.sub(pattern, '', text)` for a
matcher `M` reporting the match length at the current position.  On a
match of length `n` the whole match (the head character plus `n - 1`
characters of the rest) is dropped and scanning resumes after it;
otherwise the head character is kept. -/
def removeAllF (M : List Char → Option Nat) : Nat → List Char → List Char
  | 0, l => l
  | _ + 1, [] => []
  | fuel + 1, c :: rest =>
    match M (c :: rest) with
    | some n => removeAllF M fuel (rest.drop (n - 1))
    | none => c :: removeAllF M fuel rest

def removeAll (M : List Char → Option Nat) (l : List Char) : List Char :=
  removeAllF M l.length l

/-- Fueled scan of `re.sub(r'\s+', ' ', text)`: each maximal whitespace
run becomes a single space. -/
def collapseWsF : Nat → List Char → List Char
  | 0, l => l
  | _ + 1, [] => []
  | fuel + 1, c :: rest =>
    if isPySpace c then ' ' :: collapseWsF fuel (rest.dropWhile isPySpace)
    else c :: collapseWsF fuel rest

def collapseWs (l : List Char) : List Char := collapseWsF l.length l

/-- Removal of trailing whitespace (the right half of `str.strip`). -/
def rstripWs : List Char → List Char
  | [] => []
  | c :: r =>
    let r' := rstripWs r
    if r'.isEmpty && isPySpace c then [] else c :: r'

/-- `str.strip()` over the ASCII whitespace model. -/
def stripWs (l : List Char) : List Char := rstripWs (l.dropWhile isPySpace)

/-- `' '.join(...)` on character lists. -/
def joinSp : List (List Char) → List Char
  | [] => []
  | [x] => x
  | x :: xs => x ++ ' ' :: joinSp xs

/-- Fueled `str.split()` (no argument): maximal non-whitespace runs. -/
def pySplitF : Nat → List Char → List (List Char)
  | 0, _ => []
  | _ + 1, [] => []
  | fuel + 1, c :: rest =>
    if isPySpace c then pySplitF fuel rest
    else (c :: rest.takeWhile notWs) :: pySplitF fuel (rest.dropWhile notWs)

def pySplit (l : List Char) : List (List Char) := pySplitF l.length l

/-- One transcript segment; the data model gives each segment a `text`
field (the Python dicts' `"text"` key). -/
structure Segment where
  text : String
deriving DecidableEq

/-- The per-segment body of `clean_transcript_text`: the three `re.sub`
removal passes (timestamps, style tags, remaining `<...>` content), the
whitespace collapse, and the final `.strip()` applied on append. -/
def cleanSegmentText (text : List Char) : List Char :=
  stripWs (collapseWs (removeAll starMatchLen (removeAll styleMatchLen (removeAll tsMatchLen text))))

/-- `clean_transcript_text` from scripts/summarize_transcript.py.  The
input is `none` for Python `None`; `if not segments: return ""` covers
both `None` and the empty list. -/
def clean_transcript_text (segments : Option (List Segment)) : String :=
  match segments with
  | none => ""
  | some segs =>
    if segs.isEmpty then ""
    else String.mk (joinSp (segs.map (fun s => cleanSegmentText s.text.data)))

/-- The cleaning pair of summarize_transcript_with_agnos.py:
`re.sub(r'<[^>]+>', '', text)` then `re.sub(r'\s+', ' ', text).strip()`. -/
def cleanBasic (l : List Char) : List Char :=
  stripWs (collapseWs (removeAll plusMatchLen l))

/-- The short-notice string of `fallback_summarize` for transcripts of
fewer than 50 words. -/
def shortNotice (total_words : Nat) : String :=
  "This video has very little spoken content. The transcript contains only " ++
    toString total_words ++ " words."

/-- `fallback_summarize` from scripts/summarize_transcript_with_agnos.py.
`title = none` models Python `None`; a present but empty title is falsy
in Python, hence unnamed in the report. -/
def fallback_summarize (text : String) (title : Option String) : String :=
  let cleaned := cleanBasic text.data
  let words := pySplit cleaned
  let total_words := words.length
  if total_words < 50 then shortNotice total_words
  else
    let beginning := joinSp (words.take 100)
    let middle_start := total_words / 2 - 50
    let middle := joinSp ((words.drop middle_start).take 100)
    let end_start := total_words - 100
    let ending := joinSp (words.drop end_start)
    let title_text := match title with
      | some t => if t = "" then "" else "Video: " ++ t ++ "\n\n"
      | none => ""
    title_text ++
      "This is a basic summary as the AI summarization service is unavailable.\n\nThe video contains approximately " ++
      toString total_words ++ " words of spoken content.\n\nBeginning excerpt: " ++
      String.mk beginning ++ "...\n\nMiddle excerpt: " ++ String.mk middle ++
      "...\n\nEnding excerpt: " ++ String.mk ending ++ "...\n"

/-- Segment-text extraction at the top of `agno_summarize`: a list
input keeps exactly the `"text"` values of the segments that have the
key (`seg.get('text', '') for seg in transcript if 'text' in seg`,
joined with single spaces); a string input is used as is.  A segment is
modelled as `Option String`: `none` lacks the `"text"` key. -/
def extractTranscriptText : Sum (List (Option String)) String → String
  | Sum.inl segs => String.intercalate " " (segs.filterMap id)
  | Sum.inr s => s

/-- `agno_summarize` from scripts/summarize_transcript_with_agnos.py.
`llmState` is the oracle for the module-level provider state and the
chat-completion call: `none` models a disabled provider (`USING_AGNO`
false or `llm` unset), `some (Except.error e)` a call that raises (the
bare `except` falls through to the fallback), `some (Except.ok s)` a
successful call returning `s`. -/
def agno_summarize (transcript : Sum (List (Option String)) String)
    (video_title : Option String) (llmState : Option (Except String String)) : String :=
  let transcript_text := String.mk (cleanBasic (extractTranscriptText transcript).data)
  match llmState with
  | some (Except.ok s) => s
  | some (Except.error _) => fallback_summarize transcript_text video_title
  | none => fallback_summarize transcript_text video_title

/-- `summarize_with_agno` from scripts/summarize_transcript.py.
`agentResp` is the oracle for `agent.generate(prompt)`; an exception
there is uncaught, modelled by `Except.error` propagating to the
caller. -/
def summarize_with_agno (transcript_text : String) (video_title : String)
    (agentResp : Except String String) : Except String String :=
  if transcript_text = "" then Except.ok "No transcript available to summarize."
  else agentResp

/-- The transcript API response as seen by `fetch_transcript`:
`transportError` models a `requests.RequestException` (connection
failure or non-2xx status via `raise_for_status`); otherwise the JSON
body carries `success` and an optional `transcript` list. -/
structure TranscriptResp where
  transportError : Bool
  success : Bool
  transcript : Option (List Segment)

/-- `fetch_transcript` from scripts/summarize_transcript.py.  A
transport error is caught and yields `None`; a delivered body whose
`success` is false or whose `transcript` is missing or empty (Python
truthiness of `data.get("transcript")`) raises a bare `Exception` that
no handler catches, modelled as `Except.error`. -/
def fetch_transcript (resp : TranscriptResp) : Except String (Option (List Segment)) :=
  if resp.transportError then Except.ok none
  else if resp.success && (match resp.transcript with
      | some l => !l.isEmpty
      | none => false) then
    Except.ok resp.transcript
  else Except.error "Failed to fetch transcript"

/-- The video-details API response: each item is its optional
`snippet.title`. -/
structure VideoResp where
  transportError : Bool
  items : List (Option String)

/-- `fetch_video_details` from scripts/summarize_transcript.py: a
transport error yields `None`; an empty `items` list raises a bare
`Exception` (uncaught). -/
def fetch_video_details (resp : VideoResp) : Except String (Option (Option String)) :=
  if resp.transportError then Except.ok none
  else
    match resp.items with
    | [] => Except.error "No video details found"
    | item :: _ => Except.ok (some item)

structure CliArgs where
  video_id : String
  output : Option String

/-- The external interactions of one CLI run: the two API responses and
the outcome of `agent.generate`. -/
structure RunEnv where
  transcriptResp : TranscriptResp
  videoResp : VideoResp
  agentResp : Except String String

structure MainOutcome where
  exitCode : Nat
  wroteFile : Bool
deriving DecidableEq

/-- The `main` driver of scripts/summarize_transcript.py.  An uncaught
Python exception terminates the process with exit status 1 before any
file is written; those paths are the `Except.error` branches. -/
def runMain (args : CliArgs) (env : RunEnv) : MainOutcome :=
  match fetch_transcript env.transcriptResp with
  | Except.error _ => ⟨1, false⟩
  | Except.ok t =>
    match t with
    | none => ⟨1, false⟩
    | some transcript =>
      if transcript.isEmpty then ⟨1, false⟩
      else
        match fetch_video_details env.videoResp with
        | Except.error _ => ⟨1, false⟩
        | Except.ok vd =>
          let video_title := match vd with
            | some (some t) => t
            | some none => "Untitled Video"
            | none => "Untitled Video"
          let transcript_text := clean_transcript_text (some transcript)
          match summarize_with_agno transcript_text video_title env.agentResp with
          | Except.error _ => ⟨1, false⟩
          | Except.ok _ => ⟨0, args.output.isSome⟩

/-! ### Fuel irrelevance and step equations for the fueled scanners -/

theorem length_dropWhile_le (p : Char → Bool) (l : List Char) :
    (l.dropWhile p).length ≤ l.length :=
  (List.dropWhile_suffix p).length_le

theorem removeAllF_fuel (M : List Char → Option Nat) :
    ∀ f g l, l.length ≤ f → l.length ≤ g → removeAllF M f l = removeAllF M g l := by
  intro f
  induction f with
  | zero =>
    intro g l hf _
    have hl : l = [] := List.eq_nil_of_length_eq_zero (Nat.le_zero.mp hf)
    subst hl
    cases g <;> rfl
  | succ f ih =>
    intro g l hf hg
    cases l with
    | nil => cases g <;> rfl
    | cons c rest =>
      cases g with
      | zero => simp at hg
      | succ g' =>
        have hf' : rest.length ≤ f := by simp at hf; omega
        have hg' : rest.length ≤ g' := by simp at hg; omega
        simp only [removeAllF]
        cases hM : M (c :: rest) with
        | some n =>
          have hd : (rest.drop (n - 1)).length ≤ rest.length := by
            rw [List.length_drop]; omega
          exact ih g' _ (le_trans hd hf') (le_trans hd hg')
        | none =>
          rw [ih g' rest hf' hg']

theorem removeAll_nil (M : List Char → Option Nat) : removeAll M [] = [] := rfl

theorem removeAll_cons (M : List Char → Option Nat) (c : Char) (rest : List Char) :
    removeAll M (c :: rest) =
      match M (c :: rest) with
      | some n => removeAll M (rest.drop (n - 1))
      | none => c :: removeAll M rest := by
  unfold removeAll
  simp only [List.length_cons, removeAllF]
  cases hM : M (c :: rest) with
  | some n =>
    exact removeAllF_fuel M rest.length _ _ (by rw [List.length_drop]; omega) le_rfl
  | none => rfl

theorem collapseWsF_fuel :
    ∀ f g l, l.length ≤ f → l.length ≤ g → collapseWsF f l = collapseWsF g l := by
  intro f
  induction f with
  | zero =>
    intro g l hf _
    have hl : l = [] := List.eq_nil_of_length_eq_zero (Nat.le_zero.mp hf)
    subst hl
    cases g <;> rfl
  | succ f ih =>
    intro g l hf hg
    cases l with
    | nil => cases g <;> rfl
    | cons c rest =>
      cases g with
      | zero => simp at hg
      | succ g' =>
        have hf' : rest.length ≤ f := by simp at hf; omega
        have hg' : rest.length ≤ g' := by simp at hg; omega
        simp only [collapseWsF]
        by_cases hc : isPySpace c = true
        · simp only [if_pos hc]
          have hd : (rest.dropWhile isPySpace).length ≤ rest.length :=
            length_dropWhile_le _ _
          rw [ih g' _ (le_trans hd hf') (le_trans hd hg')]
        · simp only [if_neg hc]
          rw [ih g' rest hf' hg']

theorem collapseWs_nil : collapseWs [] = [] := rfl

theorem collapseWs_cons (c : Char) (rest : List Char) :
    collapseWs (c :: rest) =
      if isPySpace c then ' ' :: collapseWs (rest.dropWhile isPySpace)
      else c :: collapseWs rest := by
  unfold collapseWs
  simp only [List.length_cons, collapseWsF]
  by_cases hc : isPySpace c = true
  · simp only [if_pos hc]
    exact congrArg _
      (collapseWsF_fuel rest.length _ _ (length_dropWhile_le _ _) le_rfl)
  · simp only [if_neg hc]

theorem pySplitF_fuel :
    ∀ f g l, l.length ≤ f → l.length ≤ g → pySplitF f l = pySplitF g l := by
  intro f
  induction f with
  | zero =>
    intro g l hf _
    have hl : l = [] := List.eq_nil_of_length_eq_zero (Nat.le_zero.mp hf)
    subst hl
    cases g <;> rfl
  | succ f ih =>
    intro g l hf hg
    cases l with
    | nil => cases g <;> rfl
    | cons c rest =>
      cases g with
      | zero => simp at hg
      | succ g' =>
        have hf' : rest.length ≤ f := by simp at hf; omega
        have hg' : rest.length ≤ g' := by simp at hg; omega
        simp only [pySplitF]
        by_cases hc : isPySpace c = true
        · simp only [if_pos hc]
          rw [ih g' rest hf' hg']
        · simp only [if_neg hc]
          have hd : (rest.dropWhile notWs).length ≤ rest.length :=
            length_dropWhile_le _ _
          rw [ih g' _ (le_trans hd hf') (le_trans hd hg')]

theorem pySplit_nil : pySplit [] = [] := rfl

theorem pySplit_cons (c : Char) (rest : List Char) :
    pySplit (c :: rest) =
      if isPySpace c then pySplit rest
      else (c :: rest.takeWhile notWs) :: pySplit (rest.dropWhile notWs) := by
  unfold pySplit
  simp only [List.length_cons, pySplitF]
  by_cases hc : isPySpace c = true
  · simp only [if_pos hc]
  · simp only [if_neg hc]
    exact congrArg _
      (pySplitF_fuel rest.length _ _ (length_dropWhile_le _ _) le_rfl)

/-! ### Word counting -/

/-- `wcAux b l` counts the maximal non-whitespace runs of `l`; the flag
`b` records whether the scan is currently inside such a run. -/
def wcAux : Bool → List Char → Nat
  | _, [] => 0
  | b, c :: r =>
    if isPySpace c then wcAux false r
    else (if b then 0 else 1) + wcAux true r

/-- Substring occurrence (contiguous) on character lists. -/
def containsSub (p l : List Char) : Bool :=
  match l with
  | [] => p.isEmpty
  | c :: rest => p.isPrefixOf (c :: rest) || containsSub p rest

theorem wcAux_nil (b : Bool) : wcAux b [] = 0 := rfl

theorem wcAux_cons (b : Bool) (c : Char) (r : List Char) :
    wcAux b (c :: r) =
      if isPySpace c = true then wcAux false r
      else (if b = true then 0 else 1) + wcAux true r := rfl

theorem wcAux_true_le (b : Bool) (l : List Char) : wcAux true l ≤ wcAux b l := by
  cases l with
  | nil => exact le_rfl
  | cons c r =>
    rw [wcAux_cons, wcAux_cons]
    by_cases hc : isPySpace c = true
    · rw [if_pos hc, if_pos hc]
    · rw [if_neg hc, if_neg hc]
      cases b <;> simp

theorem wcAux_le_true_succ (b : Bool) (l : List Char) : wcAux b l ≤ wcAux true l + 1 := by
  cases l with
  | nil => exact Nat.le_succ 0
  | cons c r =>
    rw [wcAux_cons, wcAux_cons]
    by_cases hc : isPySpace c = true
    · rw [if_pos hc, if_pos hc]
      exact Nat.le_succ _
    · rw [if_neg hc, if_neg hc]
      cases b <;> simp <;> omega

theorem wcAux_dropWhile_ws (l : List Char) :
    wcAux false (l.dropWhile isPySpace) = wcAux false l := by
  induction l with
  | nil => rfl
  | cons c r ih =>
    by_cases hc : isPySpace c = true
    · rw [List.dropWhile_cons_of_pos hc, ih, wcAux_cons, if_pos hc]
    · rw [List.dropWhile_cons_of_neg (by simpa using hc)]

theorem wcAux_true_eq_dropWhile (l : List Char) :
    wcAux true l = wcAux false (l.dropWhile notWs) := by
  induction l with
  | nil => rfl
  | cons c r ih =>
    by_cases hc : isPySpace c = true
    · have hnw : ¬ notWs c = true := by simp [notWs, hc]
      rw [List.dropWhile_cons_of_neg hnw, wcAux_cons, if_pos hc, wcAux_cons, if_pos hc]
    · have hnw : notWs c = true := by simp [notWs, hc]
      rw [List.dropWhile_cons_of_pos hnw, wcAux_cons, if_neg hc]
      simpa using ih

theorem pySplitF_length :
    ∀ fuel l, l.length ≤ fuel → (pySplitF fuel l).length = wcAux false l := by
  intro fuel
  induction fuel with
  | zero =>
    intro l hf
    have hl : l = [] := List.eq_nil_of_length_eq_zero (Nat.le_zero.mp hf)
    subst hl
    rfl
  | succ fuel ih =>
    intro l hf
    cases l with
    | nil => rfl
    | cons c rest =>
      have hf' : rest.length ≤ fuel := by simp at hf; omega
      simp only [pySplitF]
      by_cases hc : isPySpace c = true
      · rw [if_pos hc, ih rest hf', wcAux_cons, if_pos hc]
      · rw [if_neg hc]
        have hd : (rest.dropWhile notWs).length ≤ fuel :=
          le_trans (length_dropWhile_le _ _) hf'
        simp only [List.length_cons, ih _ hd]
        rw [wcAux_cons, if_neg hc, ← wcAux_true_eq_dropWhile]
        simp [Nat.add_comm]

theorem pySplit_length (l : List Char) : (pySplit l).length = wcAux false l :=
  pySplitF_length l.length l le_rfl

theorem wcAux_collapseWsF :
    ∀ fuel l b, l.length ≤ fuel → wcAux b (collapseWsF fuel l) = wcAux b l := by
  intro fuel
  induction fuel with
  | zero => intro l b _; rfl
  | succ fuel ih =>
    intro l b hf
    cases l with
    | nil => rfl
    | cons c rest =>
      have hf' : rest.length ≤ fuel := by simp at hf; omega
      simp only [collapseWsF]
      by_cases hc : isPySpace c = true
      · rw [if_pos hc]
        have hsp : isPySpace ' ' = true := rfl
        rw [wcAux_cons, if_pos hsp, wcAux_cons, if_pos hc]
        rw [ih _ false (le_trans (length_dropWhile_le _ _) hf')]
        exact wcAux_dropWhile_ws rest
      · rw [if_neg hc]
        rw [wcAux_cons, if_neg hc, wcAux_cons, if_neg hc, ih rest true hf']

theorem wcAux_collapseWs (l : List Char) (b : Bool) : wcAux b (collapseWs l) = wcAux b l :=
  wcAux_collapseWsF l.length l b le_rfl

theorem rstripWs_cons (c : Char) (r : List Char) :
    rstripWs (c :: r) =
      if ((rstripWs r).isEmpty && isPySpace c) = true then [] else c :: rstripWs r := rfl

theorem rstripWs_eq_nil_wcAux {l : List Char} (h : rstripWs l = []) (b : Bool) :
    wcAux b l = 0 := by
  induction l generalizing b with
  | nil => rfl
  | cons c r ih =>
    rw [rstripWs_cons] at h
    by_cases hcond : ((rstripWs r).isEmpty && isPySpace c) = true
    · have hr : rstripWs r = [] := by
        have := (Bool.and_eq_true _ _).mp hcond
        simpa [List.isEmpty_iff] using this.1
      have hc : isPySpace c = true := ((Bool.and_eq_true _ _).mp hcond).2
      rw [wcAux_cons, if_pos hc]
      exact ih hr false
    · rw [if_neg hcond] at h
      exact absurd h (by simp)

theorem wcAux_rstripWs (l : List Char) (b : Bool) : wcAux b (rstripWs l) = wcAux b l := by
  induction l generalizing b with
  | nil => rfl
  | cons c r ih =>
    rw [rstripWs_cons]
    by_cases hcond : ((rstripWs r).isEmpty && isPySpace c) = true
    · rw [if_pos hcond]
      have hr : rstripWs r = [] := by
        have := (Bool.and_eq_true _ _).mp hcond
        simpa [List.isEmpty_iff] using this.1
      have hc : isPySpace c = true := ((Bool.and_eq_true _ _).mp hcond).2
      rw [wcAux_nil, wcAux_cons, if_pos hc]
      exact (rstripWs_eq_nil_wcAux hr false).symm
    · rw [if_neg hcond]
      by_cases hc : isPySpace c = true
      · rw [wcAux_cons, if_pos hc, wcAux_cons, if_pos hc, ih false]
      · rw [wcAux_cons, if_neg hc, wcAux_cons, if_neg hc, ih true]

theorem wcAux_stripWs (l : List Char) : wcAux false (stripWs l) = wcAux false l := by
  unfold stripWs
  rw [wcAux_rstripWs, wcAux_dropWhile_ws]

/-! ### Word-count monotonicity of the tag-removal pass -/

theorem wcAux_append_gt_cons (y : List Char) :
    ∀ x b, wcAux true y ≤ wcAux b (x ++ '>' :: y) := by
  intro x
  induction x with
  | nil =>
    intro b
    have hgt : ¬ isPySpace '>' = true := by decide
    rw [List.nil_append, wcAux_cons, if_neg hgt]
    exact Nat.le_add_left _ _
  | cons c x' ih =>
    intro b
    rw [List.cons_append, wcAux_cons]
    by_cases hc : isPySpace c = true
    · rw [if_pos hc]
      exact ih false
    · rw [if_neg hc]
      exact le_trans (ih true) (Nat.le_add_left _ _)

theorem drop_len_cons (x : List Char) (c : Char) (y : List Char) :
    (x ++ c :: y).drop (x.length + 1) = y := by
  induction x with
  | nil => rfl
  | cons a x' ih => simpa using ih

theorem dropWhile_head_not {p : Char → Bool} {l : List Char} {c : Char} {s : List Char}
    (h : l.dropWhile p = c :: s) : p c = false := by
  induction l with
  | nil => simp at h
  | cons a r ih =>
    by_cases ha : p a = true
    · rw [List.dropWhile_cons_of_pos ha] at h
      exact ih h
    · rw [List.dropWhile_cons_of_neg ha] at h
      cases h
      simpa using ha

theorem plusMatchLen_some {c : Char} {r : List Char} {n : Nat}
    (h : plusMatchLen (c :: r) = some n) :
    c = '<' ∧ ∃ body after, r = body ++ '>' :: after ∧
      n = body.length + 2 ∧ r.drop (n - 1) = after := by
  simp only [plusMatchLen] at h
  by_cases hc : c = '<'
  · subst hc
    rw [if_pos rfl] at h
    refine ⟨rfl, r.takeWhile notGt, ?_⟩
    cases hd : r.dropWhile notGt with
    | nil => rw [hd] at h; simp at h
    | cons d after =>
      rw [hd] at h
      have hdgt : d = '>' := by
        have := dropWhile_head_not hd
        simpa [notGt] using this
      subst hdgt
      by_cases hb : (r.takeWhile notGt).isEmpty = true
      · rw [if_pos hb] at h; simp at h
      · rw [if_neg hb] at h
        simp only [Option.some.injEq] at h
        have hr : r = r.takeWhile notGt ++ '>' :: after := by
          conv_lhs => rw [← List.takeWhile_append_dropWhile (p := notGt) (l := r)]
          rw [hd]
        refine ⟨after, hr, by omega, ?_⟩
        rw [hr]
        have hn1 : n - 1 = (r.takeWhile notGt).length + 1 := by omega
        rw [hn1]
        exact drop_len_cons _ _ _
  · rw [if_neg hc] at h
    simp at h

theorem wcAux_removePlusF_le :
    ∀ fuel l b, l.length ≤ fuel →
      wcAux b (removeAllF plusMatchLen fuel l) ≤ wcAux b l := by
  intro fuel
  induction fuel with
  | zero => intro l b _; exact le_rfl
  | succ fuel ih =>
    intro l b hf
    cases l with
    | nil => exact le_rfl
    | cons c rest =>
      have hf' : rest.length ≤ fuel := by simp at hf; omega
      simp only [removeAllF]
      cases hM : plusMatchLen (c :: rest) with
      | some n =>
        obtain ⟨hc, body, after, hrest, hn, hdrop⟩ := plusMatchLen_some hM
        subst hc
        show wcAux b (removeAllF plusMatchLen fuel (rest.drop (n - 1))) ≤
          wcAux b ('<' :: rest)
        rw [hdrop]
        have hafter : after.length ≤ fuel := by
          have hlen : rest.length = body.length + 1 + after.length := by
            rw [hrest]; simp; omega
          omega
        have hlt : ¬ isPySpace '<' = true := by decide
        rw [wcAux_cons, if_neg hlt]
        have h1 : wcAux true (removeAllF plusMatchLen fuel after) ≤ wcAux true after :=
          ih after true hafter
        have h2 : wcAux true after ≤ wcAux true rest := by
          rw [hrest]
          exact wcAux_append_gt_cons after body true
        cases b with
        | true =>
          simp only [if_pos rfl]
          omega
        | false =>
          have h3 : wcAux false (removeAllF plusMatchLen fuel after) ≤
              wcAux true (removeAllF plusMatchLen fuel after) + 1 := wcAux_le_true_succ _ _
          simp only [Bool.false_eq_true, if_false]
          omega
      | none =>
        show wcAux b (c :: removeAllF plusMatchLen fuel rest) ≤ wcAux b (c :: rest)
        rw [wcAux_cons, wcAux_cons]
        by_cases hc : isPySpace c = true
        · rw [if_pos hc, if_pos hc]
          exact ih rest false hf'
        · rw [if_neg hc, if_neg hc]
          exact Nat.add_le_add_left (ih rest true hf') _

theorem wordCount_cleanBasic_le (l : List Char) :
    (pySplit (cleanBasic l)).length ≤ (pySplit l).length := by
  rw [pySplit_length, pySplit_length]
  unfold cleanBasic
  rw [wcAux_stripWs, wcAux_collapseWs]
  exact wcAux_removePlusF_le l.length l false le_rfl

theorem plusMatchLen_head_ne {c : Char} {r : List Char} (h : c ≠ '<') :
    plusMatchLen (c :: r) = none := by
  simp only [plusMatchLen]
  rw [if_neg h]

theorem removePlusF_id_of_no_lt :
    ∀ fuel l, l.length ≤ fuel → (∀ c ∈ l, c ≠ '<') →
      removeAllF plusMatchLen fuel l = l := by
  intro fuel
  induction fuel with
  | zero => intro l _ _; rfl
  | succ fuel ih =>
    intro l hf hl
    cases l with
    | nil => rfl
    | cons c rest =>
      have hf' : rest.length ≤ fuel := by simp at hf; omega
      simp only [removeAllF]
      rw [plusMatchLen_head_ne (hl c (List.mem_cons_self c rest))]
      show c :: removeAllF plusMatchLen fuel rest = c :: rest
      rw [ih rest hf' (fun d hd => hl d (List.mem_cons_of_mem c hd))]

/-! ### Well-formed markup text -/

theorem nth_append_left {x : List Char} (y : List Char) :
    ∀ i, i < x.length → nth (x ++ y) i = nth x i := by
  induction x with
  | nil => intro i hi; simp at hi
  | cons a x' ih =>
    intro i hi
    cases i with
    | zero => rfl
    | succ j =>
      show nth (x' ++ y) j = nth x' j
      exact ih j (by simpa using Nat.lt_of_succ_lt_succ hi)

theorem nth_append_right (x y : List Char) :
    ∀ i, nth (x ++ y) (x.length + i) = nth y i := by
  induction x with
  | nil =>
    intro i
    rw [List.nil_append, List.length_nil, Nat.zero_add]
  | cons a x' ih =>
    intro i
    have hlen : (a :: x').length + i = (x'.length + i) + 1 := by
      simp
      omega
    rw [hlen, List.cons_append]
    show nth (x' ++ y) (x'.length + i) = nth y i
    exact ih i

theorem nth_mem {l : List Char} : ∀ {i c}, nth l i = some c → c ∈ l := by
  induction l with
  | nil => intro i c h; simp [nth] at h
  | cons a r ih =>
    intro i c h
    cases i with
    | zero =>
      have : a = c := by simpa [nth] using h
      exact this ▸ List.mem_cons_self a r
    | succ j => exact List.mem_cons_of_mem a (ih h)

/-- Well-formed markup text: a concatenation of angle-bracket-free
characters and complete groups `<...>` whose contents contain no angle
brackets. -/
inductive WF : List Char → Prop
  | nil : WF []
  | plain {c : Char} {r : List Char} : c ≠ '<' → c ≠ '>' → WF r → WF (c :: r)
  | group {m : List Char} {r : List Char} :
      (∀ c ∈ m, c ≠ '<' ∧ c ≠ '>') → WF r → WF ('<' :: (m ++ '>' :: r))

/-- Characters that are neither `'<'` nor `'>'`. -/
def notAngle (c : Char) : Bool := c != '<' && c != '>'

/-- Fueled checker for `WF`. -/
def wfF : Nat → List Char → Bool
  | 0, l => l.isEmpty
  | _ + 1, [] => true
  | fuel + 1, c :: r =>
    if c = '>' then false
    else if c = '<' then
      if (r.dropWhile notAngle).head? = some '>' then wfF fuel (r.dropWhile notAngle).tail
      else false
    else wfF fuel r

def wfB (l : List Char) : Bool := wfF l.length l

theorem dropWhile_suffix_length (p : Char → Bool) (l : List Char) {d : Char} {r2 : List Char}
    (h : l.dropWhile p = d :: r2) : r2.length < l.length := by
  have hle : (l.dropWhile p).length ≤ l.length := length_dropWhile_le p l
  rw [h] at hle
  simp at hle
  omega

theorem takeWhile_dropWhile_decomp {p : Char → Bool} {l : List Char} {d : Char} {r2 : List Char}
    (h : l.dropWhile p = d :: r2) : l = l.takeWhile p ++ d :: r2 := by
  conv_lhs => rw [← List.takeWhile_append_dropWhile (p := p) (l := l)]
  rw [h]

theorem wfF_sound : ∀ fuel l, l.length ≤ fuel → wfF fuel l = true → WF l := by
  intro fuel
  induction fuel with
  | zero =>
    intro l hf _
    have hl : l = [] := List.eq_nil_of_length_eq_zero (Nat.le_zero.mp hf)
    subst hl
    exact WF.nil
  | succ fuel ih =>
    intro l hf hw
    cases l with
    | nil => exact WF.nil
    | cons c r =>
      have hf' : r.length ≤ fuel := by simp at hf; omega
      simp only [wfF] at hw
      by_cases hgt : c = '>'
      · rw [if_pos hgt] at hw; simp at hw
      · rw [if_neg hgt] at hw
        by_cases hlt : c = '<'
        · rw [if_pos hlt] at hw
          cases hd : r.dropWhile notAngle with
          | nil => rw [hd] at hw; simp at hw
          | cons d r2 =>
            rw [hd] at hw
            by_cases hdg : d = '>'
            · rw [if_pos (show (d :: r2).head? = some '>' by subst hdg; rfl)] at hw
              subst hdg
              subst hlt
              replace hw : wfF fuel r2 = true := hw
              have hr2 : r2.length ≤ fuel := by
                have := dropWhile_suffix_length notAngle r hd
                omega
              have hwf2 : WF r2 := ih r2 hr2 hw
              have hdecomp : r = r.takeWhile notAngle ++ '>' :: r2 :=
                takeWhile_dropWhile_decomp hd
              rw [hdecomp]
              refine WF.group ?_ hwf2
              intro e he
              have := List.mem_takeWhile_imp he
              simp [notAngle] at this
              exact this
            · rw [if_neg (show ¬ (d :: r2).head? = some '>' by simp [hdg])] at hw
              simp at hw
        · rw [if_neg hlt] at hw
          exact WF.plain hlt hgt (ih r hf' hw)

/-! ### Head and group facts for the three matchers -/

theorem tsMatchLen_head {c : Char} {r : List Char} {n : Nat}
    (h : tsMatchLen (c :: r) = some n) : c = '<' ∧ tsTail r = true ∧ n = 14 := by
  simp only [tsMatchLen] at h
  by_cases hc : c = '<'
  · rw [if_pos hc] at h
    by_cases ht : tsTail r = true
    · rw [if_pos ht] at h
      simp at h
      exact ⟨hc, ht, h.symm⟩
    · rw [if_neg ht] at h; simp at h
  · rw [if_neg hc] at h; simp at h

theorem styleMatchLen_head {c : Char} {r : List Char} {n : Nat}
    (h : styleMatchLen (c :: r) = some n) : c = '<' := by
  simp only [styleMatchLen] at h
  by_cases hc : c = '<'
  · exact hc
  · rw [if_neg hc] at h; simp at h

theorem starMatchLen_head {c : Char} {r : List Char} {n : Nat}
    (h : starMatchLen (c :: r) = some n) : c = '<' := by
  simp only [starMatchLen] at h
  by_cases hc : c = '<'
  · exact hc
  · rw [if_neg hc] at h; simp at h

theorem tsTail_gt_mem {r : List Char} (h : tsTail r = true) : '>' ∈ r := by
  simp only [tsTail, Bool.and_eq_true] at h
  have h12 := h.2
  cases h12nth : nth r 12 with
  | none => rw [h12nth] at h12; simp [isChO] at h12
  | some e =>
    rw [h12nth] at h12
    have he : e = '>' := by simpa [isChO] using h12
    subst he
    exact nth_mem h12nth

theorem gt_mem_of_dropWhile_ne {r : List Char}
    (h : (r.dropWhile notGt).isEmpty = false) : '>' ∈ r := by
  cases hd : r.dropWhile notGt with
  | nil => rw [hd] at h; simp at h
  | cons e r4 =>
    have hegt : e = '>' := by
      have := dropWhile_head_not hd
      simpa [notGt] using this
    subst hegt
    exact (List.dropWhile_suffix notGt).subset (hd ▸ List.mem_cons_self _ _)

theorem styleTagTail_some {slash : Nat} {r2 : List Char} {n : Nat}
    (h : styleTagTail slash r2 = some n) :
    ∃ a r3, r2 = a :: r3 ∧ isAsciiLow a = true ∧
      (r3.dropWhile notGt).isEmpty = false ∧
      n = 1 + slash + 1 + (r3.takeWhile notGt).length + 1 := by
  cases r2 with
  | nil => simp [styleTagTail] at h
  | cons a r3 =>
    simp only [styleTagTail] at h
    by_cases hlow : isAsciiLow a = true
    · rw [if_pos hlow] at h
      by_cases hemp : (r3.dropWhile notGt).isEmpty = true
      · rw [if_pos hemp] at h; simp at h
      · rw [if_neg hemp] at h
        simp only [Option.some.injEq] at h
        exact ⟨a, r3, rfl, hlow, by simpa using hemp, h.symm⟩
    · rw [if_neg hlow] at h; simp at h

theorem styleMatchLen_gt_mem {c : Char} {r : List Char} {n : Nat}
    (h : styleMatchLen (c :: r) = some n) : '>' ∈ r := by
  have hc := styleMatchLen_head h
  subst hc
  simp only [styleMatchLen, eq_self_iff_true, if_true] at h
  by_cases hs : nth r 0 = some '/'
  · rw [if_pos hs] at h
    obtain ⟨a, r3, ht, _, hne, _⟩ := styleTagTail_some h
    have h3 : '>' ∈ r3 := gt_mem_of_dropWhile_ne hne
    cases r with
    | nil => simp [nth] at hs
    | cons b rr =>
      have hrr : rr = a :: r3 := by simpa using ht
      subst hrr
      exact List.mem_cons_of_mem b (List.mem_cons_of_mem a h3)
  · rw [if_neg hs] at h
    obtain ⟨a, r3, ht, _, hne, _⟩ := styleTagTail_some h
    rw [ht]
    exact List.mem_cons_of_mem a (gt_mem_of_dropWhile_ne hne)

theorem starMatchLen_gt_mem {c : Char} {r : List Char} {n : Nat}
    (h : starMatchLen (c :: r) = some n) : '>' ∈ r := by
  have hc := starMatchLen_head h
  subst hc
  simp only [starMatchLen, eq_self_iff_true, if_true] at h
  by_cases hemp : (r.dropWhile notGt).isEmpty = true
  · rw [if_pos hemp] at h; simp at h
  · exact gt_mem_of_dropWhile_ne (by simpa using hemp)

theorem tsMatchLen_gt_mem {c : Char} {r : List Char} {n : Nat}
    (h : tsMatchLen (c :: r) = some n) : '>' ∈ r :=
  tsTail_gt_mem (tsMatchLen_head h).2.1

/-! ### Group alignment of the matchers on well-formed text -/

theorem isDigO_ne_gt {o : Option Char} (h : isDigO o = true) :
    ∃ c, o = some c ∧ c ≠ '>' := by
  cases o with
  | none => simp [isDigO] at h
  | some c =>
    refine ⟨c, rfl, ?_⟩
    intro hc
    subst hc
    exact absurd h (by decide)

theorem isChO_ne_gt {o : Option Char} {d : Char} (h : isChO o d = true) (hd : d ≠ '>') :
    ∃ c, o = some c ∧ c ≠ '>' := by
  cases o with
  | none => simp [isChO] at h
  | some c =>
    have hcd : c = d := by simpa [isChO] using h
    exact ⟨c, rfl, fun h' => hd (by rw [← hcd]; exact h')⟩

theorem tsTail_pos_ne_gt {x : List Char} (h : tsTail x = true) :
    ∀ i, i ≤ 11 → ∃ c, nth x i = some c ∧ c ≠ '>' := by
  simp only [tsTail, Bool.and_eq_true] at h
  obtain ⟨⟨⟨⟨⟨⟨⟨⟨⟨⟨⟨⟨h0, h1⟩, h2⟩, h3⟩, h4⟩, h5⟩, h6⟩, h7⟩, h8⟩, h9⟩, h10⟩, h11⟩, h12⟩ := h
  intro i hi
  interval_cases i
  · exact isDigO_ne_gt h0
  · exact isDigO_ne_gt h1
  · exact isChO_ne_gt h2 (by decide)
  · exact isDigO_ne_gt h3
  · exact isDigO_ne_gt h4
  · exact isChO_ne_gt h5 (by decide)
  · exact isDigO_ne_gt h6
  · exact isDigO_ne_gt h7
  · exact isChO_ne_gt h8 (by decide)
  · exact isDigO_ne_gt h9
  · exact isDigO_ne_gt h10
  · exact isDigO_ne_gt h11

theorem ts_group_len {m r : List Char}
    (hm : ∀ c ∈ m, c ≠ '<' ∧ c ≠ '>')
    (ht : tsTail (m ++ '>' :: r) = true) : m.length = 12 := by
  by_cases hle : m.length ≤ 11
  · exfalso
    obtain ⟨c, hc, hcne⟩ := tsTail_pos_ne_gt ht m.length hle
    have hgt : nth (m ++ '>' :: r) m.length = some '>' := by
      have := nth_append_right m ('>' :: r) 0
      simpa using this
    rw [hgt] at hc
    exact hcne (by simpa using hc.symm)
  · by_cases hge : 13 ≤ m.length
    · exfalso
      simp only [tsTail, Bool.and_eq_true] at ht
      have h12 := ht.2
      have h12' : nth (m ++ '>' :: r) 12 = nth m 12 := nth_append_left _ 12 (by omega)
      rw [h12'] at h12
      cases hm12 : nth m 12 with
      | none => rw [hm12] at h12; simp [isChO] at h12
      | some c =>
        rw [hm12] at h12
        have hcg : c = '>' := by simpa [isChO] using h12
        exact (hm c (nth_mem hm12)).2 hcg
    · omega

theorem tsMatchLen_group {m r : List Char} {n : Nat}
    (hm : ∀ c ∈ m, c ≠ '<' ∧ c ≠ '>')
    (h : tsMatchLen ('<' :: (m ++ '>' :: r)) = some n) : n = m.length + 2 := by
  obtain ⟨-, ht, hn⟩ := tsMatchLen_head h
  rw [hn, ts_group_len hm ht]

theorem takeWhile_notGt_group {x : List Char} (hx : ∀ c ∈ x, c ≠ '>') (y : List Char) :
    (x ++ '>' :: y).takeWhile notGt = x ∧ (x ++ '>' :: y).dropWhile notGt = '>' :: y := by
  induction x with
  | nil =>
    constructor
    · rw [List.nil_append]
      exact List.takeWhile_cons_of_neg (by simp [notGt])
    · rw [List.nil_append]
      exact List.dropWhile_cons_of_neg (by simp [notGt])
  | cons a x' ih =>
    have ha : notGt a = true := by
      simpa [notGt] using hx a (List.mem_cons_self a x')
    obtain ⟨iht, ihd⟩ := ih (fun d hd => hx d (List.mem_cons_of_mem a hd))
    constructor
    · rw [List.cons_append, List.takeWhile_cons_of_pos ha, iht]
    · rw [List.cons_append, List.dropWhile_cons_of_pos ha, ihd]

theorem styleMatchLen_group {m r : List Char} {n : Nat}
    (hm : ∀ c ∈ m, c ≠ '<' ∧ c ≠ '>')
    (h : styleMatchLen ('<' :: (m ++ '>' :: r)) = some n) : n = m.length + 2 := by
  simp only [styleMatchLen, eq_self_iff_true, if_true] at h
  cases m with
  | nil =>
    rw [List.nil_append] at h
    rw [if_neg (by simp [nth])] at h
    obtain ⟨a, r3, hcons, hlow, -, -⟩ := styleTagTail_some h
    injection hcons with h1 h2
    rw [← h1] at hlow
    exact absurd hlow (by decide)
  | cons d m' =>
    have hm' : ∀ c ∈ m', c ≠ '<' ∧ c ≠ '>' :=
      fun c hc => hm c (List.mem_cons_of_mem d hc)
    by_cases hds : d = '/'
    · rw [if_pos (by rw [List.cons_append]; simp [nth, hds])] at h
      replace h : styleTagTail 1 (m' ++ '>' :: r) = some n := h
      obtain ⟨a, r3, hcons, hlow, hne, hn⟩ := styleTagTail_some h
      cases m' with
      | nil =>
        rw [List.nil_append] at hcons
        injection hcons with h1 h2
        rw [← h1] at hlow
        exact absurd hlow (by decide)
      | cons a' m'' =>
        rw [List.cons_append] at hcons
        injection hcons with h1 h2
        have hm'' : ∀ c ∈ m'', c ≠ '>' :=
          fun c hc => (hm' c (List.mem_cons_of_mem a' hc)).2
        obtain ⟨htake, -⟩ := takeWhile_notGt_group hm'' r
        rw [← h2, htake] at hn
        simp only [List.length_cons]
        omega
    · rw [if_neg (by rw [List.cons_append]; simp [nth, hds])] at h
      replace h : styleTagTail 0 (d :: (m' ++ '>' :: r)) = some n := h
      obtain ⟨a, r3, hcons, hlow, hne, hn⟩ := styleTagTail_some h
      injection hcons with h1 h2
      have hm'2 : ∀ c ∈ m', c ≠ '>' := fun c hc => (hm' c hc).2
      obtain ⟨htake, -⟩ := takeWhile_notGt_group hm'2 r
      rw [← h2, htake] at hn
      simp only [List.length_cons]
      omega

theorem starMatchLen_group_eq {m r : List Char}
    (hm : ∀ c ∈ m, c ≠ '<' ∧ c ≠ '>') :
    starMatchLen ('<' :: (m ++ '>' :: r)) = some (m.length + 2) := by
  obtain ⟨htake, hdrop⟩ := takeWhile_notGt_group (fun c hc => (hm c hc).2) r
  simp only [starMatchLen, eq_self_iff_true, if_true]
  rw [hdrop, htake]
  rw [if_neg (by simp)]
  have h1 : 1 + m.length + 1 = m.length + 2 := by omega
  rw [h1]

theorem starMatchLen_group {m r : List Char} {n : Nat}
    (hm : ∀ c ∈ m, c ≠ '<' ∧ c ≠ '>')
    (h : starMatchLen ('<' :: (m ++ '>' :: r)) = some n) : n = m.length + 2 := by
  rw [starMatchLen_group_eq hm] at h
  simpa using h.symm

/-! ### Generic removal-pass lemmas over well-formed text -/

theorem removeAll_head_none (M : List Char → Option Nat)
    (hHead : ∀ c r n, M (c :: r) = some n → c = '<')
    {c : Char} (r : List Char) (hc : c ≠ '<') : M (c :: r) = none := by
  cases hM : M (c :: r) with
  | none => rfl
  | some n => exact absurd (hHead c r n hM) hc

theorem removeAll_skip (M : List Char → Option Nat)
    (hHead : ∀ c r n, M (c :: r) = some n → c = '<') :
    ∀ x y, (∀ c ∈ x, c ≠ '<') → removeAll M (x ++ y) = x ++ removeAll M y := by
  intro x
  induction x with
  | nil => intro y _; simp
  | cons c x' ih =>
    intro y hx
    rw [List.cons_append, removeAll_cons,
        removeAll_head_none M hHead _ (hx c (List.mem_cons_self c x'))]
    show c :: removeAll M (x' ++ y) = c :: (x' ++ removeAll M y)
    rw [ih y (fun d hd => hx d (List.mem_cons_of_mem c hd))]

theorem removeAll_WF (M : List Char → Option Nat)
    (hHead : ∀ c r n, M (c :: r) = some n → c = '<')
    (hGroup : ∀ m r n, (∀ c ∈ m, c ≠ '<' ∧ c ≠ '>') →
      M ('<' :: (m ++ '>' :: r)) = some n → n = m.length + 2) :
    ∀ {l}, WF l → WF (removeAll M l) := by
  intro l hwf
  induction hwf with
  | nil => exact WF.nil
  | @plain c r hlt hgt hr ih =>
    rw [removeAll_cons, removeAll_head_none M hHead r hlt]
    exact WF.plain hlt hgt ih
  | @group m r hm hr ih =>
    rw [removeAll_cons]
    cases hM : M ('<' :: (m ++ '>' :: r)) with
    | some n =>
      have hn := hGroup m r n hm hM
      show WF (removeAll M ((m ++ '>' :: r).drop (n - 1)))
      have hd : (m ++ '>' :: r).drop (n - 1) = r := by
        rw [hn]
        have h1 : m.length + 2 - 1 = m.length + 1 := by omega
        rw [h1]
        exact drop_len_cons m '>' r
      rw [hd]
      exact ih
    | none =>
      show WF ('<' :: removeAll M (m ++ '>' :: r))
      rw [removeAll_skip M hHead m ('>' :: r) (fun c hc => (hm c hc).1)]
      rw [removeAll_cons, removeAll_head_none M hHead r (by decide)]
      show WF ('<' :: (m ++ '>' :: removeAll M r))
      exact WF.group hm ih

theorem removeAll_star_noAngle :
    ∀ {l}, WF l → ∀ c ∈ removeAll starMatchLen l, c ≠ '<' ∧ c ≠ '>' := by
  intro l hwf
  induction hwf with
  | nil => intro c hc; simp [removeAll_nil] at hc
  | @plain a r hlt hgt hr ih =>
    intro c hc
    rw [removeAll_cons,
        removeAll_head_none starMatchLen (fun c r n h => starMatchLen_head h) r hlt] at hc
    replace hc : c ∈ a :: removeAll starMatchLen r := hc
    rcases List.mem_cons.mp hc with h1 | h2
    · subst h1; exact ⟨hlt, hgt⟩
    · exact ih c h2
  | @group m r hm hr ih =>
    intro c hc
    rw [removeAll_cons, starMatchLen_group_eq hm] at hc
    replace hc :
        c ∈ removeAll starMatchLen ((m ++ '>' :: r).drop (m.length + 2 - 1)) := hc
    have hd : (m ++ '>' :: r).drop (m.length + 2 - 1) = r := by
      have h1 : m.length + 2 - 1 = m.length + 1 := by omega
      rw [h1]
      exact drop_len_cons m '>' r
    rw [hd] at hc
    exact ih c hc

/-! ### Whitespace shape of cleaned text -/

/-- No two adjacent whitespace characters (no whitespace run longer
than one). -/
def noDoubleWs : List Char → Bool
  | a :: b :: r => (!(isPySpace a && isPySpace b)) && noDoubleWs (b :: r)
  | _ => true

def headNotWs : List Char → Bool
  | [] => true
  | c :: _ => !isPySpace c

def lastNotWs : List Char → Bool
  | [] => true
  | [c] => !isPySpace c
  | _ :: r => lastNotWs r

/-- Every whitespace character is a plain space. -/
def wsOnlySpace (l : List Char) : Bool := l.all (fun c => !isPySpace c || c = ' ')

theorem noDoubleWs_cons₂ (a b : Char) (r : List Char) :
    noDoubleWs (a :: b :: r) = ((!(isPySpace a && isPySpace b)) && noDoubleWs (b :: r)) := rfl

theorem noDoubleWs_tail {a : Char} {l : List Char} (h : noDoubleWs (a :: l) = true) :
    noDoubleWs l = true := by
  cases l with
  | nil => rfl
  | cons b r =>
    rw [noDoubleWs_cons₂, Bool.and_eq_true] at h
    exact h.2

theorem noDoubleWs_cons_of_head {a : Char} {l : List Char} (ha : isPySpace a = false)
    (h : noDoubleWs l = true) : noDoubleWs (a :: l) = true := by
  cases l with
  | nil => rfl
  | cons b r =>
    rw [noDoubleWs_cons₂, Bool.and_eq_true]
    exact ⟨by simp [ha], h⟩

theorem noDoubleWs_cons_any (a : Char) {l : List Char} (hh : headNotWs l = true)
    (h : noDoubleWs l = true) : noDoubleWs (a :: l) = true := by
  cases l with
  | nil => rfl
  | cons b r =>
    rw [noDoubleWs_cons₂, Bool.and_eq_true]
    refine ⟨?_, h⟩
    have hb : isPySpace b = false := by simpa [headNotWs] using hh
    simp [hb]

theorem lastNotWs_cons (c : Char) {l : List Char} (h : l ≠ []) :
    lastNotWs (c :: l) = lastNotWs l := by
  cases l with
  | nil => exact absurd rfl h
  | cons b r => rfl

theorem noDoubleWs_append_left {x y : List Char} (h : noDoubleWs (x ++ y) = true) :
    noDoubleWs x = true := by
  induction x with
  | nil => rfl
  | cons a x' ih =>
    cases x' with
    | nil => rfl
    | cons b x'' =>
      rw [List.cons_append] at h
      have hpair : (!(isPySpace a && isPySpace b)) = true := by
        rw [List.cons_append, noDoubleWs_cons₂, Bool.and_eq_true] at h
        exact h.1
      rw [noDoubleWs_cons₂, Bool.and_eq_true]
      exact ⟨hpair, ih (noDoubleWs_tail h)⟩

theorem noDoubleWs_append_right {x y : List Char} (h : noDoubleWs (x ++ y) = true) :
    noDoubleWs y = true := by
  induction x with
  | nil => exact h
  | cons a x' ih =>
    rw [List.cons_append] at h
    exact ih (noDoubleWs_tail h)

theorem headNotWs_append {x : List Char} (y : List Char) (h : x ≠ []) :
    headNotWs (x ++ y) = headNotWs x := by
  cases x with
  | nil => exact absurd rfl h
  | cons a x' => rfl

theorem lastNotWs_append (x : List Char) {y : List Char} (hy : y ≠ []) :
    lastNotWs (x ++ y) = lastNotWs y := by
  induction x with
  | nil => rfl
  | cons a x' ih =>
    rw [List.cons_append, lastNotWs_cons a (by simp [hy]), ih]

theorem rstripWs_isPrefix (l : List Char) : rstripWs l <+: l := by
  induction l with
  | nil => exact List.nil_prefix
  | cons c r ih =>
    rw [rstripWs_cons]
    by_cases hcond : ((rstripWs r).isEmpty && isPySpace c) = true
    · rw [if_pos hcond]
      exact List.nil_prefix
    · rw [if_neg hcond]
      obtain ⟨t, ht⟩ := ih
      exact ⟨t, by rw [List.cons_append, ht]⟩

theorem rstripWs_lastNotWs (l : List Char) : lastNotWs (rstripWs l) = true := by
  induction l with
  | nil => rfl
  | cons c r ih =>
    rw [rstripWs_cons]
    by_cases hcond : ((rstripWs r).isEmpty && isPySpace c) = true
    · rw [if_pos hcond]; rfl
    · rw [if_neg hcond]
      cases hr : rstripWs r with
      | nil =>
        have hc : isPySpace c = false := by
          rw [hr] at hcond
          simpa using hcond
        simp [lastNotWs, hc]
      | cons d s =>
        rw [lastNotWs_cons c (by simp [hr])]
        rw [← hr]
        exact ih

theorem headNotWs_dropWhile (l : List Char) :
    headNotWs (l.dropWhile isPySpace) = true := by
  cases hd : l.dropWhile isPySpace with
  | nil => rfl
  | cons c s =>
    have := dropWhile_head_not hd
    simp [headNotWs, this]

theorem stripWs_headNotWs (l : List Char) : headNotWs (stripWs l) = true := by
  unfold stripWs
  cases hr : rstripWs (l.dropWhile isPySpace) with
  | nil => rfl
  | cons d s =>
    obtain ⟨t, ht⟩ := rstripWs_isPrefix (l.dropWhile isPySpace)
    rw [hr] at ht
    have hh := headNotWs_dropWhile l
    rw [← ht] at hh
    rw [List.cons_append] at hh
    simpa [headNotWs] using hh

theorem stripWs_lastNotWs (l : List Char) : lastNotWs (stripWs l) = true :=
  rstripWs_lastNotWs _

theorem stripWs_noDouble {l : List Char} (h : noDoubleWs l = true) :
    noDoubleWs (stripWs l) = true := by
  unfold stripWs
  obtain ⟨s, hs⟩ := List.dropWhile_suffix (l := l) isPySpace
  have h1 : noDoubleWs (l.dropWhile isPySpace) = true :=
    noDoubleWs_append_right (x := s) (by rw [hs]; exact h)
  obtain ⟨t, ht⟩ := rstripWs_isPrefix (l.dropWhile isPySpace)
  exact noDoubleWs_append_left (x := rstripWs (l.dropWhile isPySpace)) (by rw [ht]; exact h1)

theorem stripWs_mem {l : List Char} {c : Char} (hc : c ∈ stripWs l) : c ∈ l := by
  unfold stripWs at hc
  exact (List.dropWhile_suffix isPySpace).subset ((rstripWs_isPrefix _).subset hc)

theorem collapseWsF_mem :
    ∀ fuel l c, c ∈ collapseWsF fuel l → c = ' ' ∨ c ∈ l := by
  intro fuel
  induction fuel with
  | zero => intro l c hc; exact Or.inr hc
  | succ fuel ih =>
    intro l c hc
    cases l with
    | nil => simp [collapseWsF] at hc
    | cons a rest =>
      simp only [collapseWsF] at hc
      by_cases ha : isPySpace a = true
      · rw [if_pos ha] at hc
        rcases List.mem_cons.mp hc with h1 | h2
        · exact Or.inl h1
        · rcases ih _ c h2 with h3 | h4
          · exact Or.inl h3
          · exact Or.inr (List.mem_cons_of_mem a ((List.dropWhile_suffix isPySpace).subset h4))
      · rw [if_neg ha] at hc
        rcases List.mem_cons.mp hc with h1 | h2
        · exact Or.inr (h1 ▸ List.mem_cons_self a rest)
        · rcases ih _ c h2 with h3 | h4
          · exact Or.inl h3
          · exact Or.inr (List.mem_cons_of_mem a h4)

theorem collapseWsF_headNotWs :
    ∀ fuel l, l.length ≤ fuel → headNotWs l = true →
      headNotWs (collapseWsF fuel l) = true := by
  intro fuel
  induction fuel with
  | zero =>
    intro l hf _
    have hl : l = [] := List.eq_nil_of_length_eq_zero (Nat.le_zero.mp hf)
    subst hl
    rfl
  | succ fuel _ =>
    intro l _ hh
    cases l with
    | nil => rfl
    | cons a rest =>
      have ha : isPySpace a = false := by simpa [headNotWs] using hh
      simp only [collapseWsF]
      rw [if_neg (by simp [ha])]
      simpa [headNotWs] using ha

theorem collapseWsF_noDouble :
    ∀ fuel l, l.length ≤ fuel → noDoubleWs (collapseWsF fuel l) = true := by
  intro fuel
  induction fuel with
  | zero =>
    intro l hf
    have hl : l = [] := List.eq_nil_of_length_eq_zero (Nat.le_zero.mp hf)
    subst hl
    rfl
  | succ fuel ih =>
    intro l hf
    cases l with
    | nil => rfl
    | cons a rest =>
      have hf' : rest.length ≤ fuel := by simp at hf; omega
      simp only [collapseWsF]
      by_cases ha : isPySpace a = true
      · rw [if_pos ha]
        have hdlen : (rest.dropWhile isPySpace).length ≤ fuel :=
          le_trans (length_dropWhile_le _ _) hf'
        refine noDoubleWs_cons_any ' ' ?_ (ih _ hdlen)
        exact collapseWsF_headNotWs fuel _ hdlen (headNotWs_dropWhile rest)
      · rw [if_neg ha]
        exact noDoubleWs_cons_of_head (by simpa using ha) (ih rest hf')

theorem collapseWsF_wsOnly :
    ∀ fuel l, l.length ≤ fuel → wsOnlySpace (collapseWsF fuel l) = true := by
  intro fuel
  induction fuel with
  | zero =>
    intro l hf
    have hl : l = [] := List.eq_nil_of_length_eq_zero (Nat.le_zero.mp hf)
    subst hl
    rfl
  | succ fuel ih =>
    intro l hf
    cases l with
    | nil => rfl
    | cons a rest =>
      have hf' : rest.length ≤ fuel := by simp at hf; omega
      simp only [collapseWsF]
      by_cases ha : isPySpace a = true
      · rw [if_pos ha]
        have hdlen : (rest.dropWhile isPySpace).length ≤ fuel :=
          le_trans (length_dropWhile_le _ _) hf'
        simp only [wsOnlySpace, List.all_cons, Bool.and_eq_true]
        exact ⟨by decide, ih _ hdlen⟩
      · rw [if_neg ha]
        simp only [wsOnlySpace, List.all_cons, Bool.and_eq_true]
        exact ⟨by simp [ha], ih rest hf'⟩

theorem wsOnly_of_mem {l : List Char} (h : wsOnlySpace l = true) {c : Char} (hc : c ∈ l) :
    isPySpace c = false ∨ c = ' ' := by
  simp only [wsOnlySpace, List.all_eq_true] at h
  have := h c hc
  by_cases hcs : isPySpace c = true
  · right
    simpa [hcs] using this
  · left
    simpa using hcs

theorem wsOnly_of_forall {l : List Char}
    (h : ∀ c ∈ l, isPySpace c = false ∨ c = ' ') : wsOnlySpace l = true := by
  simp only [wsOnlySpace, List.all_eq_true]
  intro c hc
  rcases h c hc with h1 | h1
  · simp [h1]
  · simp [h1]

/-! ### Joining the cleaned segments -/

theorem joinSp_cons₂ (x y : List Char) (ys : List (List Char)) :
    joinSp (x :: y :: ys) = x ++ ' ' :: joinSp (y :: ys) := rfl

theorem joinSp_ne_nil : ∀ {parts : List (List Char)}, parts ≠ [] →
    (∀ p ∈ parts, p ≠ []) → joinSp parts ≠ [] := by
  intro parts hne hp
  cases parts with
  | nil => exact absurd rfl hne
  | cons x xs =>
    cases xs with
    | nil => exact hp x (List.mem_cons_self x [])
    | cons y ys =>
      rw [joinSp_cons₂]
      simp

theorem noDoubleWs_append_sep :
    ∀ {x : List Char}, noDoubleWs x = true → lastNotWs x = true →
      ∀ {y : List Char}, headNotWs y = true → noDoubleWs y = true →
        noDoubleWs (x ++ ' ' :: y) = true := by
  intro x
  induction x with
  | nil =>
    intro _ _ y hhy hy
    exact noDoubleWs_cons_any ' ' hhy hy
  | cons a x₀ ih =>
    intro hx hlx y hhy hy
    cases x₀ with
    | nil =>
      have ha : isPySpace a = false := by simpa [lastNotWs] using hlx
      rw [List.cons_append, List.nil_append]
      exact noDoubleWs_cons_of_head ha (noDoubleWs_cons_any ' ' hhy hy)
    | cons b x' =>
      simp only [List.cons_append]
      have hpair : (!(isPySpace a && isPySpace b)) = true := by
        rw [noDoubleWs_cons₂, Bool.and_eq_true] at hx
        exact hx.1
      have htail : noDoubleWs ((b :: x') ++ ' ' :: y) = true :=
        ih (noDoubleWs_tail hx) (by rw [← lastNotWs_cons a (by simp)]; exact hlx) hhy hy
      rw [List.cons_append] at htail
      rw [noDoubleWs_cons₂, Bool.and_eq_true]
      exact ⟨hpair, htail⟩

theorem joinSp_props :
    ∀ parts : List (List Char),
      (∀ p ∈ parts, p ≠ [] ∧ noDoubleWs p = true ∧ headNotWs p = true ∧ lastNotWs p = true) →
      noDoubleWs (joinSp parts) = true ∧ headNotWs (joinSp parts) = true ∧
        lastNotWs (joinSp parts) = true := by
  intro parts
  induction parts with
  | nil => intro _; exact ⟨rfl, rfl, rfl⟩
  | cons x xs ih =>
    intro hp
    obtain ⟨hxne, hxd, hxh, hxl⟩ := hp x (List.mem_cons_self x xs)
    cases xs with
    | nil => exact ⟨hxd, hxh, hxl⟩
    | cons y ys =>
      obtain ⟨ihd, ihh, ihl⟩ := ih (fun p hmem => hp p (List.mem_cons_of_mem x hmem))
      have hjne : joinSp (y :: ys) ≠ [] :=
        joinSp_ne_nil (by simp) (fun p hmem => (hp p (List.mem_cons_of_mem x hmem)).1)
      rw [joinSp_cons₂]
      refine ⟨noDoubleWs_append_sep hxd hxl ihh ihd, ?_, ?_⟩
      · rw [headNotWs_append _ hxne]
        exact hxh
      · rw [lastNotWs_append x (by simp), lastNotWs_cons ' ' hjne]
        exact ihl

theorem joinSp_mem :
    ∀ (parts : List (List Char)) (c : Char), c ∈ joinSp parts →
      c = ' ' ∨ ∃ p ∈ parts, c ∈ p := by
  intro parts
  induction parts with
  | nil => intro c hc; simp [joinSp] at hc
  | cons x xs ih =>
    intro c hc
    cases xs with
    | nil =>
      right
      exact ⟨x, List.mem_cons_self x [], hc⟩
    | cons y ys =>
      rw [joinSp_cons₂] at hc
      rcases List.mem_append.mp hc with h1 | h2
      · exact Or.inr ⟨x, List.mem_cons_self x _, h1⟩
      · rcases List.mem_cons.mp h2 with h3 | h4
        · exact Or.inl h3
        · rcases ih c h4 with h5 | ⟨p, hp1, hp2⟩
          · exact Or.inl h5
          · exact Or.inr ⟨p, List.mem_cons_of_mem x hp1, hp2⟩

/-! ### Properties of one cleaned segment -/

theorem strip_collapse_props {u : List Char} (hang : ∀ c ∈ u, c ≠ '<' ∧ c ≠ '>') :
    (∀ c ∈ stripWs (collapseWs u), c ≠ '<' ∧ c ≠ '>') ∧
      noDoubleWs (stripWs (collapseWs u)) = true ∧
      headNotWs (stripWs (collapseWs u)) = true ∧
      lastNotWs (stripWs (collapseWs u)) = true := by
  have hnd : noDoubleWs (collapseWs u) = true := collapseWsF_noDouble u.length u le_rfl
  refine ⟨?_, stripWs_noDouble hnd, stripWs_headNotWs _, stripWs_lastNotWs _⟩
  intro c hc
  have hc1 : c ∈ collapseWs u := stripWs_mem hc
  rcases collapseWsF_mem u.length u c hc1 with h1 | h2
  · subst h1; exact ⟨by decide, by decide⟩
  · exact hang c h2

theorem cleanSegmentText_props {t : List Char} (h : WF t) :
    (∀ c ∈ cleanSegmentText t, c ≠ '<' ∧ c ≠ '>') ∧
      noDoubleWs (cleanSegmentText t) = true ∧
      headNotWs (cleanSegmentText t) = true ∧
      lastNotWs (cleanSegmentText t) = true := by
  have hts : WF (removeAll tsMatchLen t) :=
    removeAll_WF tsMatchLen (fun c r n hM => (tsMatchLen_head hM).1)
      (fun m r n hm hM => tsMatchLen_group hm hM) h
  have hsty : WF (removeAll styleMatchLen (removeAll tsMatchLen t)) :=
    removeAll_WF styleMatchLen (fun c r n hM => styleMatchLen_head hM)
      (fun m r n hm hM => styleMatchLen_group hm hM) hts
  have hstar := removeAll_star_noAngle hsty
  unfold cleanSegmentText
  exact strip_collapse_props hstar

theorem cleanSegmentText_wsOnly (t : List Char) :
    wsOnlySpace (cleanSegmentText t) = true := by
  unfold cleanSegmentText
  refine wsOnly_of_forall ?_
  intro c hc
  exact wsOnly_of_mem (collapseWsF_wsOnly _ _ le_rfl) (stripWs_mem hc)

theorem joinSp_wsOnly :
    ∀ parts : List (List Char), (∀ p ∈ parts, wsOnlySpace p = true) →
      wsOnlySpace (joinSp parts) = true := by
  intro parts
  induction parts with
  | nil => intro _; rfl
  | cons x xs ih =>
    intro hp
    cases xs with
    | nil => exact hp x (List.mem_cons_self x [])
    | cons y ys =>
      rw [joinSp_cons₂]
      simp only [wsOnlySpace, List.all_append, List.all_cons, Bool.and_eq_true]
      refine ⟨?_, by decide, ?_⟩
      · simpa [wsOnlySpace] using hp x (List.mem_cons_self x _)
      · simpa [wsOnlySpace] using ih (fun p hm => hp p (List.mem_cons_of_mem x hm))

theorem clean_data_join {segs : List Segment} (hne : segs ≠ []) :
    (clean_transcript_text (some segs)).data =
      joinSp (segs.map (fun s => cleanSegmentText s.text.data)) := by
  show ((if segs.isEmpty then ("" : String)
        else String.mk (joinSp (segs.map (fun s => cleanSegmentText s.text.data))))).data = _
  rw [if_neg (by simpa [List.isEmpty_iff] using hne)]

theorem clean_wsOnly (segs : List Segment) :
    wsOnlySpace (clean_transcript_text (some segs)).data = true := by
  by_cases hne : segs = []
  · subst hne
    rfl
  · rw [clean_data_join hne]
    refine joinSp_wsOnly _ ?_
    intro p hp
    obtain ⟨sg, _, hps⟩ := List.mem_map.mp hp
    subst hps
    exact cleanSegmentText_wsOnly _

/-! ### Markup presence (the hypothesis of claim C1) -/

/-- Whether a matcher matches at any position of `l`. -/
def anyMatchB (M : List Char → Option Nat) : List Char → Bool
  | [] => false
  | c :: r => (M (c :: r)).isSome || anyMatchB M r

/-- Presence of timestamp or style markup somewhere in the text. -/
def hasMarkup (l : List Char) : Bool :=
  anyMatchB tsMatchLen l || anyMatchB styleMatchLen l

/-- Claim C1 (amended): for a non-empty sequence of segments whose
texts are well-formed markup (plain angle-bracket-free characters
interleaved with complete `<...>` groups) and each of which cleans to a
non-empty string, if some segment contains timestamp or style markup
then the cleaned output has no angle-bracket character and no run of
more than one whitespace character. -/
theorem c1_cleaner_output_amended :
    ∀ segs : List Segment, segs ≠ [] →
      segs.all (fun s => wfB s.text.data) = true →
      segs.all (fun s => !(cleanSegmentText s.text.data).isEmpty) = true →
      segs.any (fun s => hasMarkup s.text.data) = true →
      (∀ c ∈ (clean_transcript_text (some segs)).data, c ≠ '<' ∧ c ≠ '>') ∧
        noDoubleWs (clean_transcript_text (some segs)).data = true := by
  intro segs hne hwf hnem _
  have hwfall : ∀ sg ∈ segs, WF sg.text.data := by
    intro sg hs
    have := (List.all_eq_true.mp hwf) sg hs
    exact wfF_sound _ _ le_rfl (by simpa [wfB] using this)
  rw [clean_data_join hne]
  have hparts : ∀ p ∈ segs.map (fun s => cleanSegmentText s.text.data),
      p ≠ [] ∧ noDoubleWs p = true ∧ headNotWs p = true ∧ lastNotWs p = true := by
    intro p hp
    obtain ⟨sg, hs, hps⟩ := List.mem_map.mp hp
    subst hps
    obtain ⟨_, hnd, hh, hl⟩ := cleanSegmentText_props (hwfall sg hs)
    refine ⟨?_, hnd, hh, hl⟩
    have := (List.all_eq_true.mp hnem) sg hs
    simpa [List.isEmpty_iff] using this
  obtain ⟨hjd, -, -⟩ := joinSp_props _ hparts
  refine ⟨?_, hjd⟩
  intro c hc
  rcases joinSp_mem _ c hc with h1 | ⟨p, hp, hcp⟩
  · subst h1; exact ⟨by decide, by decide⟩
  · obtain ⟨sg, hs, hps⟩ := List.mem_map.mp hp
    subst hps
    exact (cleanSegmentText_props (hwfall sg hs)).1 c hcp

/-- Counterexample to claim C1 as stated: these segments contain both a
timestamp marker and `<c>...</c>` style markup, yet the cleaned output
"hi 1 < 2  world" contains an angle bracket (the stray `<` of "1 < 2")
and a two-space whitespace run (radiating from the segment that cleaned
to the empty string). -/
theorem c1_cleaner_output_counterexample :
    ([⟨"<c>hi</c> 1 < 2"⟩, ⟨"<00:00:11.200>"⟩, ⟨"world"⟩] : List Segment) ≠ [] ∧
    ([⟨"<c>hi</c> 1 < 2"⟩, ⟨"<00:00:11.200>"⟩, ⟨"world"⟩] : List Segment).any
        (fun s => hasMarkup s.text.data) = true ∧
    '<' ∈ (clean_transcript_text
        (some [⟨"<c>hi</c> 1 < 2"⟩, ⟨"<00:00:11.200>"⟩, ⟨"world"⟩])).data ∧
    noDoubleWs (clean_transcript_text
        (some [⟨"<c>hi</c> 1 < 2"⟩, ⟨"<00:00:11.200>"⟩, ⟨"world"⟩])).data = false :=
  ⟨by decide, by decide, by decide, by decide⟩

/-- Witness for the amended C1 at a concrete segment list. -/
theorem c1_cleaner_output_amended_witness :
    (([⟨"<00:00:11.200> hi"⟩, ⟨"<c>yo</c>"⟩] : List Segment) ≠ [] ∧
      ([⟨"<00:00:11.200> hi"⟩, ⟨"<c>yo</c>"⟩] : List Segment).all
        (fun s => wfB s.text.data) = true ∧
      ([⟨"<00:00:11.200> hi"⟩, ⟨"<c>yo</c>"⟩] : List Segment).all
        (fun s => !(cleanSegmentText s.text.data).isEmpty) = true ∧
      ([⟨"<00:00:11.200> hi"⟩, ⟨"<c>yo</c>"⟩] : List Segment).any
        (fun s => hasMarkup s.text.data) = true) ∧
    ((∀ c ∈ (clean_transcript_text (some [⟨"<00:00:11.200> hi"⟩, ⟨"<c>yo</c>"⟩])).data,
        c ≠ '<' ∧ c ≠ '>') ∧
      noDoubleWs (clean_transcript_text
        (some [⟨"<00:00:11.200> hi"⟩, ⟨"<c>yo</c>"⟩])).data = true) :=
  ⟨⟨by decide, by decide, by decide, by decide⟩,
    c1_cleaner_output_amended _ (by decide) (by decide) (by decide) (by decide)⟩

/-! ### Idempotence of the cleaner (claim C4) -/

/-- No `'<'` that is followed anywhere later by a `'>'`. -/
def noLtGt : List Char → Bool
  | [] => true
  | c :: r => (if c = '<' then !(r.contains '>') else true) && noLtGt r

theorem noLtGt_cons (c : Char) (r : List Char) :
    noLtGt (c :: r) = ((if c = '<' then !(r.contains '>') else true) && noLtGt r) := rfl

theorem noLtGt_no_match (M : List Char → Option Nat)
    (hM : ∀ c r n, M (c :: r) = some n → c = '<' ∧ '>' ∈ r) :
    ∀ l, noLtGt l = true → removeAll M l = l := by
  intro l
  induction l with
  | nil => intro _; rfl
  | cons c r ih =>
    intro h
    rw [noLtGt_cons, Bool.and_eq_true] at h
    rw [removeAll_cons]
    cases hMc : M (c :: r) with
    | some n =>
      obtain ⟨hc, hgt⟩ := hM c r n hMc
      subst hc
      have h1 := h.1
      rw [if_pos rfl] at h1
      have hcont : r.contains '>' = true := by simpa using hgt
      rw [hcont] at h1
      simp at h1
    | none =>
      show c :: removeAll M r = c :: r
      rw [ih h.2]

theorem tsMatch_lt_gt : ∀ c r n, tsMatchLen (c :: r) = some n → c = '<' ∧ '>' ∈ r :=
  fun _ _ _ h => ⟨(tsMatchLen_head h).1, tsMatchLen_gt_mem h⟩

theorem styleMatch_lt_gt : ∀ c r n, styleMatchLen (c :: r) = some n → c = '<' ∧ '>' ∈ r :=
  fun _ _ _ h => ⟨styleMatchLen_head h, styleMatchLen_gt_mem h⟩

theorem starMatch_lt_gt : ∀ c r n, starMatchLen (c :: r) = some n → c = '<' ∧ '>' ∈ r :=
  fun _ _ _ h => ⟨starMatchLen_head h, starMatchLen_gt_mem h⟩

theorem wsOnly_tail {c : Char} {l : List Char} (h : wsOnlySpace (c :: l) = true) :
    wsOnlySpace l = true := by
  simp only [wsOnlySpace, List.all_cons, Bool.and_eq_true] at h ⊢
  exact h.2

theorem collapseWsF_fix :
    ∀ fuel l, l.length ≤ fuel → noDoubleWs l = true → wsOnlySpace l = true →
      collapseWsF fuel l = l := by
  intro fuel
  induction fuel with
  | zero => intro l _ _ _; rfl
  | succ fuel ih =>
    intro l hf hnd hws
    cases l with
    | nil => rfl
    | cons c rest =>
      have hf' : rest.length ≤ fuel := by simp at hf; omega
      simp only [collapseWsF]
      by_cases hc : isPySpace c = true
      · rw [if_pos hc]
        have hcs : c = ' ' := by
          rcases wsOnly_of_mem hws (List.mem_cons_self c rest) with h1 | h1
          · exact absurd hc (by simp [h1])
          · exact h1
        have hdw : rest.dropWhile isPySpace = rest := by
          cases rest with
          | nil => rfl
          | cons d sres =>
            have hpair : (!(isPySpace c && isPySpace d)) = true := by
              rw [noDoubleWs_cons₂, Bool.and_eq_true] at hnd
              exact hnd.1
            have hd : isPySpace d = false := by
              rw [hc] at hpair
              simpa using hpair
            exact List.dropWhile_cons_of_neg (by simp [hd])
        rw [hdw, ih rest hf' (noDoubleWs_tail hnd) (wsOnly_tail hws), hcs]
      · rw [if_neg hc]
        rw [ih rest hf' (noDoubleWs_tail hnd) (wsOnly_tail hws)]

theorem dropWhile_ws_fix {l : List Char} (h : headNotWs l = true) :
    l.dropWhile isPySpace = l := by
  cases l with
  | nil => rfl
  | cons c r =>
    have hc : isPySpace c = false := by simpa [headNotWs] using h
    exact List.dropWhile_cons_of_neg (by simp [hc])

theorem rstripWs_fix : ∀ {l : List Char}, lastNotWs l = true → rstripWs l = l := by
  intro l
  induction l with
  | nil => intro _; rfl
  | cons c r ih =>
    intro h
    rw [rstripWs_cons]
    cases r with
    | nil =>
      have hc : isPySpace c = false := by simpa [lastNotWs] using h
      rw [if_neg (by simp [hc])]
      rfl
    | cons d sres =>
      have hr : rstripWs (d :: sres) = d :: sres :=
        ih (by rw [← lastNotWs_cons c (by simp)]; exact h)
      rw [if_neg (by rw [hr]; simp), hr]

/-- Claim C4 (amended): whenever the cleaned result contains no `'<'`
followed by a later `'>'`, no whitespace run longer than one, and no
leading or trailing whitespace, re-cleaning it as a single segment
returns it unchanged.  (All whitespace of a cleaned result is already a
plain space, so no further hypothesis is needed.) -/
theorem c4_idempotence_amended :
    ∀ segs : List Segment,
      noLtGt (clean_transcript_text (some segs)).data = true →
      noDoubleWs (clean_transcript_text (some segs)).data = true →
      headNotWs (clean_transcript_text (some segs)).data = true →
      lastNotWs (clean_transcript_text (some segs)).data = true →
      clean_transcript_text (some [⟨clean_transcript_text (some segs)⟩]) =
        clean_transcript_text (some segs) := by
  intro segs h1 h2 h3 h4
  have hws : wsOnlySpace (clean_transcript_text (some segs)).data = true := clean_wsOnly segs
  have e1 : removeAll tsMatchLen (clean_transcript_text (some segs)).data =
      (clean_transcript_text (some segs)).data :=
    noLtGt_no_match tsMatchLen tsMatch_lt_gt _ h1
  have e2 : removeAll styleMatchLen (clean_transcript_text (some segs)).data =
      (clean_transcript_text (some segs)).data :=
    noLtGt_no_match styleMatchLen styleMatch_lt_gt _ h1
  have e3 : removeAll starMatchLen (clean_transcript_text (some segs)).data =
      (clean_transcript_text (some segs)).data :=
    noLtGt_no_match starMatchLen starMatch_lt_gt _ h1
  have e4 : collapseWs (clean_transcript_text (some segs)).data =
      (clean_transcript_text (some segs)).data :=
    collapseWsF_fix _ _ le_rfl h2 hws
  have e5 : stripWs (clean_transcript_text (some segs)).data =
      (clean_transcript_text (some segs)).data := by
    unfold stripWs
    rw [dropWhile_ws_fix h3, rstripWs_fix h4]
  show String.mk (cleanSegmentText (clean_transcript_text (some segs)).data) =
    clean_transcript_text (some segs)
  unfold cleanSegmentText
  rw [e1, e2, e3, e4, e5]

/-- Counterexample to claim C4 as stated: the cleaned result of these
segments is "hi  world" (two spaces: the middle segment cleans to the
empty string), and cleaning it again collapses the run to "hi world". -/
theorem c4_idempotence_counterexample :
    clean_transcript_text (some [⟨"hi"⟩, ⟨"<00:00:11.200>"⟩, ⟨"world"⟩]) = "hi  world" ∧
    clean_transcript_text (some [⟨clean_transcript_text
      (some [⟨"hi"⟩, ⟨"<00:00:11.200>"⟩, ⟨"world"⟩])⟩]) = "hi world" ∧
    ("hi  world" : String) ≠ "hi world" :=
  ⟨by decide, by decide, by decide⟩

/-- Witness for the amended C4 at a concrete segment list. -/
theorem c4_idempotence_amended_witness :
    (noLtGt (clean_transcript_text (some [⟨"<c> Hello </c> world"⟩])).data = true ∧
      noDoubleWs (clean_transcript_text (some [⟨"<c> Hello </c> world"⟩])).data = true ∧
      headNotWs (clean_transcript_text (some [⟨"<c> Hello </c> world"⟩])).data = true ∧
      lastNotWs (clean_transcript_text (some [⟨"<c> Hello </c> world"⟩])).data = true) ∧
    clean_transcript_text
        (some [⟨clean_transcript_text (some [⟨"<c> Hello </c> world"⟩])⟩]) =
      clean_transcript_text (some [⟨"<c> Hello </c> world"⟩]) :=
  ⟨⟨by decide, by decide, by decide, by decide⟩,
    c4_idempotence_amended _ (by decide) (by decide) (by decide) (by decide)⟩

/-! ### Claims that follow directly from the embedded definitions -/

/-- Claim C5: `clean_transcript_text` is a total function — every input
produces a string — and empty input (`None` or the empty segment list)
yields the empty string. -/
theorem c5_clean_total_and_empty :
    clean_transcript_text none = "" ∧ clean_transcript_text (some []) = "" ∧
      ∀ segments : Option (List Segment), ∃ s : String, clean_transcript_text segments = s :=
  ⟨rfl, rfl, fun segments => ⟨clean_transcript_text segments, rfl⟩⟩

/-- Claim C6: the two-segment example of the spec cleans to exactly
"Hello world". -/
theorem c6_end_to_end_example :
    clean_transcript_text (some [⟨"<00:00:00.000> Hello"⟩, ⟨"world  "⟩]) = "Hello world" := by
  decide

/-- Claim C9: `fallback_summarize` is total (never raises), and the
empty string splits into 0 words, returning the short notice that
reports exactly 0 words. -/
theorem c9_fallback_empty_input :
    (∀ text title, ∃ s, fallback_summarize text title = s) ∧
      ∀ title, fallback_summarize "" title = shortNotice 0 :=
  ⟨fun text title => ⟨fallback_summarize text title, rfl⟩, fun _ => rfl⟩

/-- Claim C10: in `agno_summarize`, a list transcript is summarized
exactly like the string obtained by space-joining the `text` fields of
precisely those segments that have one (`none` models a segment lacking
the key, and is skipped); no such input raises. -/
theorem c10_segment_extraction :
    ∀ (segs : List (Option String)) (title : Option String)
      (llmState : Option (Except String String)),
      extractTranscriptText (Sum.inl segs) = String.intercalate " " (segs.filterMap id) ∧
      agno_summarize (Sum.inl segs) title llmState =
        agno_summarize (Sum.inr (String.intercalate " " (segs.filterMap id))) title llmState :=
  fun _ _ _ => ⟨rfl, rfl⟩

/-- Claim C2: on any input with fewer than 50 whitespace-separated
words, `fallback_summarize` returns the short notice stating the exact
word count it measured — the count of the internally re-cleaned text,
which never exceeds the input's count, and equals the input's count
whenever the input has no `'<'` character; the 10-word example contains
"only 10 words". -/
theorem c2_fallback_short_notice :
    (∀ (text : String) (title : Option String),
        (pySplit text.data).length < 50 →
        fallback_summarize text title =
          shortNotice (pySplit (cleanBasic text.data)).length) ∧
    (∀ (text : String) (title : Option String),
        (∀ c ∈ text.data, c ≠ '<') →
        (pySplit text.data).length < 50 →
        fallback_summarize text title = shortNotice (pySplit text.data).length) ∧
    containsSub "only 10 words".data
      (fallback_summarize "one two three four five six seven eight nine ten" none).data =
      true := by
  have key : ∀ (text : String) (title : Option String),
      (pySplit (cleanBasic text.data)).length < 50 →
      fallback_summarize text title =
        shortNotice (pySplit (cleanBasic text.data)).length := by
    intro text title h
    unfold fallback_summarize
    exact if_pos h
  have hcount : ∀ text : String, (∀ c ∈ text.data, c ≠ '<') →
      (pySplit (cleanBasic text.data)).length = (pySplit text.data).length := by
    intro text hnolt
    rw [pySplit_length, pySplit_length]
    unfold cleanBasic
    rw [wcAux_stripWs, wcAux_collapseWs]
    unfold removeAll
    rw [removePlusF_id_of_no_lt text.data.length text.data le_rfl hnolt]
  refine ⟨?_, ?_, ?_⟩
  · intro text title h
    exact key text title (lt_of_le_of_lt (wordCount_cleanBasic_le text.data) h)
  · intro text title hnolt h
    rw [key text title (by rw [hcount text hnolt]; exact h), hcount text hnolt]
  · decide

/-- Witness for C2 at the 10-word example. -/
theorem c2_fallback_short_notice_witness :
    (pySplit ("one two three four five six seven eight nine ten" : String).data).length < 50 ∧
    fallback_summarize "one two three four five six seven eight nine ten" none =
      shortNotice (pySplit (cleanBasic
        ("one two three four five six seven eight nine ten" : String).data)).length :=
  ⟨by decide, c2_fallback_short_notice.1 _ none (by decide)⟩

/-- The report template assembled by `fallback_summarize` for inputs of
at least 50 words. -/
def fallbackReport (title : Option String) (total_words : Nat)
    (beginning middle ending : List Char) : String :=
  (match title with
   | some t => if t = "" then "" else "Video: " ++ t ++ "\n\n"
   | none => "") ++
  "This is a basic summary as the AI summarization service is unavailable.\n\nThe video contains approximately " ++
  toString total_words ++ " words of spoken content.\n\nBeginning excerpt: " ++
  String.mk beginning ++ "...\n\nMiddle excerpt: " ++ String.mk middle ++
  "...\n\nEnding excerpt: " ++ String.mk ending ++ "...\n"

/-- Claim C3 (amended): for a cleaned text of at least 50 words, the
result is the report template naming the (non-empty) title, the exact
total word count, and the three excerpts — the first 100 words, the
100-word window starting at index max(0, total/2 − 50), and the last
100 words — which need not be pairwise distinct. -/
theorem c3_fallback_report :
    ∀ (text : String) (title : Option String),
      50 ≤ (pySplit (cleanBasic text.data)).length →
      fallback_summarize text title =
        fallbackReport title (pySplit (cleanBasic text.data)).length
          (joinSp ((pySplit (cleanBasic text.data)).take 100))
          (joinSp (((pySplit (cleanBasic text.data)).drop
            ((pySplit (cleanBasic text.data)).length / 2 - 50)).take 100))
          (joinSp ((pySplit (cleanBasic text.data)).drop
            ((pySplit (cleanBasic text.data)).length - 100))) := by
  intro text title h
  simp only [fallback_summarize]
  rw [if_neg (by omega : ¬ (pySplit (cleanBasic text.data)).length < 50)]
  rfl

/-- Fifty distinct words, the C3 counterexample input. -/
def fiftyWords : String :=
  String.intercalate " " ((List.range 50).map (fun i => "w" ++ toString i))

/-- Counterexample to claim C3 as stated: on a 50-word transcript the
"three distinct excerpts" all coincide — the beginning, middle and
ending excerpts are one and the same string — so the report does not
contain three distinct excerpts. -/
theorem c3_excerpts_counterexample :
    50 ≤ (pySplit (cleanBasic fiftyWords.data)).length ∧
    joinSp ((pySplit (cleanBasic fiftyWords.data)).take 100) =
      joinSp (((pySplit (cleanBasic fiftyWords.data)).drop
        ((pySplit (cleanBasic fiftyWords.data)).length / 2 - 50)).take 100) ∧
    joinSp (((pySplit (cleanBasic fiftyWords.data)).drop
        ((pySplit (cleanBasic fiftyWords.data)).length / 2 - 50)).take 100) =
      joinSp ((pySplit (cleanBasic fiftyWords.data)).drop
        ((pySplit (cleanBasic fiftyWords.data)).length - 100)) :=
  ⟨by decide, by decide, by decide⟩

/-- Witness for the amended C3 at the fifty-word input. -/
theorem c3_fallback_report_witness :
    50 ≤ (pySplit (cleanBasic fiftyWords.data)).length ∧
    fallback_summarize fiftyWords (some "My Title") =
      fallbackReport (some "My Title") (pySplit (cleanBasic fiftyWords.data)).length
        (joinSp ((pySplit (cleanBasic fiftyWords.data)).take 100))
        (joinSp (((pySplit (cleanBasic fiftyWords.data)).drop
          ((pySplit (cleanBasic fiftyWords.data)).length / 2 - 50)).take 100))
        (joinSp ((pySplit (cleanBasic fiftyWords.data)).drop
          ((pySplit (cleanBasic fiftyWords.data)).length - 100))) :=
  ⟨by decide, c3_fallback_report fiftyWords (some "My Title") (by decide)⟩

/-- Claim C8: the two entry points treat LLM unavailability
differently.  `agno_summarize` returns the fallback summary of the
cleaned text whenever the provider is disabled (`none`) or the call
raises (`Except.error`), while `summarize_with_agno` propagates the
error to its caller whenever the cleaned text is non-empty. -/
theorem c8_llm_failure_divergence :
    (∀ transcript title e,
        agno_summarize transcript title (some (Except.error e)) =
          fallback_summarize
            (String.mk (cleanBasic (extractTranscriptText transcript).data)) title ∧
        agno_summarize transcript title none =
          fallback_summarize
            (String.mk (cleanBasic (extractTranscriptText transcript).data)) title) ∧
    (∀ t title e, t ≠ "" →
        summarize_with_agno t title (Except.error e) = Except.error e) := by
  constructor
  · exact fun transcript title e => ⟨rfl, rfl⟩
  · intro t title e ht
    unfold summarize_with_agno
    rw [if_neg ht]

theorem fetch_transcript_ok_some {resp : TranscriptResp} {l : List Segment}
    (h : fetch_transcript resp = Except.ok (some l)) :
    resp.transportError = false ∧ resp.success = true ∧
      resp.transcript = some l ∧ l.isEmpty = false := by
  unfold fetch_transcript at h
  split at h
  · simp at h
  · rename_i hte
    split at h
    · rename_i hguard
      simp only [Except.ok.injEq] at h
      refine ⟨by simpa using hte, ?_, h, ?_⟩
      · rw [h] at hguard
        simp at hguard
        exact hguard.1
      · rw [h] at hguard
        simp at hguard
        cases l with
        | nil => exact absurd rfl hguard.2
        | cons a as => rfl
    · simp at h

theorem runMain_fetch_err (args : CliArgs) (env : RunEnv) (e : String)
    (h : fetch_transcript env.transcriptResp = Except.error e) :
    runMain args env = ⟨1, false⟩ := by
  unfold runMain
  rw [h]

theorem runMain_fetch_none (args : CliArgs) (env : RunEnv)
    (h : fetch_transcript env.transcriptResp = Except.ok none) :
    runMain args env = ⟨1, false⟩ := by
  unfold runMain
  rw [h]

/-- Claim C7 (amended): a `success: false` response causes exit code 1
with no file written; a successful fetch gives exit code 0 provided the
rest of the run raises no uncaught exception — the video-details
response is a transport error or has items, and the LLM call succeeds
(or the cleaned transcript is empty, in which case no LLM call is
made). -/
theorem c7_exit_codes_amended :
    ∀ (args : CliArgs) (env : RunEnv),
      (env.transcriptResp.success = false → runMain args env = ⟨1, false⟩) ∧
      (∀ l, fetch_transcript env.transcriptResp = Except.ok (some l) →
        (env.videoResp.transportError = true ∨ env.videoResp.items ≠ []) →
        (clean_transcript_text (some l) = "" ∨ ∃ s, env.agentResp = Except.ok s) →
        (runMain args env).exitCode = 0 ∧
          (runMain args env).wroteFile = args.output.isSome) := by
  intro args env
  constructor
  · intro hsu
    cases hte : env.transcriptResp.transportError with
    | true =>
      refine runMain_fetch_none args env ?_
      unfold fetch_transcript
      rw [hte]
      rfl
    | false =>
      refine runMain_fetch_err args env "Failed to fetch transcript" ?_
      unfold fetch_transcript
      rw [hte, hsu]
      rfl
  · intro l hf hvd hllm
    obtain ⟨⟨te, su, tr⟩, ⟨ve, items⟩, ar⟩ := env
    obtain ⟨hte, hsu, htr, hne⟩ := fetch_transcript_ok_some hf
    dsimp only at hte hsu htr hne hvd hllm
    subst hte hsu htr
    cases l with
    | nil => simp at hne
    | cons a as =>
      have hsummOk : ∃ s, summarize_with_agno
          (clean_transcript_text (some (a :: as))) "Untitled Video" ar = Except.ok s := by
        unfold summarize_with_agno
        by_cases hc : clean_transcript_text (some (a :: as)) = ""
        · exact ⟨_, if_pos hc⟩
        · rcases hllm with hc' | ⟨s, hs⟩
          · exact absurd hc' hc
          · exact ⟨s, by rw [if_neg hc, hs]⟩
      obtain ⟨s, hs⟩ := hsummOk
      cases ve with
      | true =>
        show (match summarize_with_agno (clean_transcript_text (some (a :: as)))
                "Untitled Video" ar with
              | Except.error _ => (⟨1, false⟩ : MainOutcome)
              | Except.ok _ => ⟨0, args.output.isSome⟩).exitCode = 0 ∧
             (match summarize_with_agno (clean_transcript_text (some (a :: as)))
                "Untitled Video" ar with
              | Except.error _ => (⟨1, false⟩ : MainOutcome)
              | Except.ok _ => ⟨0, args.output.isSome⟩).wroteFile = args.output.isSome
        rw [hs]
        exact ⟨rfl, rfl⟩
      | false =>
        cases items with
        | nil =>
          rcases hvd with h1 | h2
          · exact absurd h1 (by simp)
          · exact absurd rfl h2
        | cons i is =>
          show (match summarize_with_agno (clean_transcript_text (some (a :: as)))
                  "Untitled Video" ar with
                | Except.error _ => (⟨1, false⟩ : MainOutcome)
                | Except.ok _ => ⟨0, args.output.isSome⟩).exitCode = 0 ∧
               (match summarize_with_agno (clean_transcript_text (some (a :: as)))
                  "Untitled Video" ar with
                | Except.error _ => (⟨1, false⟩ : MainOutcome)
                | Except.ok _ => ⟨0, args.output.isSome⟩).wroteFile = args.output.isSome
          rw [hs]
          exact ⟨rfl, rfl⟩

/-- Counterexample to claim C7 as stated: in this run the transcript
fetch succeeds, yet the exit code is 1 (not 0) because the LLM call
raises and the exception is uncaught. -/
theorem c7_exit_codes_counterexample :
    fetch_transcript ⟨false, true, some [⟨"hello"⟩]⟩ = Except.ok (some [⟨"hello"⟩]) ∧
    runMain ⟨"vid", none⟩
        ⟨⟨false, true, some [⟨"hello"⟩]⟩, ⟨false, [some "T"]⟩, Except.error "llm down"⟩ =
      ⟨1, false⟩ :=
  ⟨rfl, rfl⟩

/-- Witness for the amended C7 at concrete runs: one with `success:
false` exiting 1, one fully successful run exiting 0. -/
theorem c7_exit_codes_amended_witness :
    runMain ⟨"vid", none⟩
        ⟨⟨false, false, some [⟨"hello"⟩]⟩, ⟨false, [some "T"]⟩, Except.ok "S"⟩ =
      ⟨1, false⟩ ∧
    (runMain ⟨"vid", some "out.json"⟩
        ⟨⟨false, true, some [⟨"hello"⟩]⟩, ⟨false, [some "T"]⟩, Except.ok "S"⟩).exitCode = 0 := by
  constructor
  · exact (c7_exit_codes_amended _ _).1 rfl
  · exact ((c7_exit_codes_amended ⟨"vid", some "out.json"⟩
      ⟨⟨false, true, some [⟨"hello"⟩]⟩, ⟨false, [some "T"]⟩, Except.ok "S"⟩).2
      [⟨"hello"⟩] rfl (Or.inr (by decide)) (Or.inr ⟨"S", rfl⟩)).1

/-- Witness for C8 at concrete inputs. -/
theorem c8_llm_failure_divergence_witness :
    agno_summarize (Sum.inr "hello world") none (some (Except.error "boom")) =
      fallback_summarize
        (String.mk (cleanBasic (extractTranscriptText (Sum.inr "hello world")).data)) none ∧
    ("hello" : String) ≠ "" ∧
    summarize_with_agno "hello" "T" (Except.error "boom") = Except.error "boom" := by
  refine ⟨(c8_llm_failure_divergence.1 (Sum.inr "hello world") none "boom").1, ?_, ?_⟩
  · decide
  · exact c8_llm_failure_divergence.2 "hello" "T" "boom" (by decide)

end VideoWebApp
